import Mathlib

/-!
# Verification of the midi-player track sequencer and guess matcher

A shallow embedding of the core logic of `src/components/MidiPlayer.tsx`:
string utilities mirroring the JavaScript string operations used by the
component, the track priority classifier, track-list initialization on song
load, the reveal sequencer (`handleMoreInstruments`), mute toggling
(`toggleMute`), restart (`handleRestart`), the engine-state verifier
(`verifyTrackStates`), the game-name variation expander
(`getGameVariations`) and the match-judging step of `handleGameSubmit`.

JavaScript strings are modelled as Lean `String`s (the repository only
feeds ASCII data through these paths); the audio engine's per-channel mute
table is modelled as a total function `Int → Bool`, since one call site
addresses channel `trackId - 1`, which is `-1` for track 0.
-/

set_option maxRecDepth 8000

/-! ## String utilities (JavaScript semantics) -/

/-- Whitespace test matching the JavaScript `\s` class on the ASCII range. -/
def isWhiteChar (c : Char) : Bool :=
  c = ' ' || c = '\t' || c = '\n' || c = '\r'

/-- ASCII lower-casing of one character, as `String.prototype.toLowerCase`
acts on the ASCII range. -/
def lowerChar (c : Char) : Char :=
  if 'A' ≤ c ∧ c ≤ 'Z' then Char.ofNat (c.toNat + 32) else c

/-- `s.toLowerCase()` on ASCII strings. -/
def lowerStr (s : String) : String :=
  ⟨s.data.map lowerChar⟩

/-- Does `pat` occur at the head of `l`? -/
def startsWithL : List Char → List Char → Bool
  | [], _ => true
  | _ :: _, [] => false
  | a :: as, b :: bs => a = b && startsWithL as bs

/-- Does `pat` occur anywhere in `l`? -/
def containsL (pat : List Char) : List Char → Bool
  | [] => startsWithL pat []
  | l@(_ :: bs) => startsWithL pat l || containsL pat bs

/-- `s.includes(pat)` of JavaScript. -/
def strContains (s pat : String) : Bool :=
  containsL pat.data s.data

/-- `s.trim() === ''`: the string is empty or all whitespace. -/
def isBlank (s : String) : Bool :=
  s.data.all isWhiteChar

/-! ## TrackPrioritizer: the priority classifier

From `loadRandomMidiFile` (src/components/MidiPlayer.tsx lines 275-291):
a case-insensitive substring scan of the track name in the fixed order
percussion (0), bass (1), guitar (3), lead (4), voice (5), melody (6),
defaulting to 2 for other instruments. -/

def classifyName (trackName : String) : Nat :=
  let lowerName := lowerStr trackName
  if strContains lowerName "percussion" then 0
  else if strContains lowerName "bass" then 1
  else if strContains lowerName "guitar" then 3
  else if strContains lowerName "lead" then 4
  else if strContains lowerName "voice" then 5
  else if strContains lowerName "melody" then 6
  else 2

/-- The keyword table in the spec's stated precedence order, with the
priority value each keyword assigns. -/
def specKeywords : List (String × Nat) :=
  [("percussion", 0), ("bass", 1), ("guitar", 3), ("lead", 4), ("voice", 5), ("melody", 6)]

/-- Modelled from the spec's words: a first-match-wins scan of the keyword
table over the lower-cased name, defaulting to `Other = 2`. -/
def keywordScan (lowerName : String) : List (String × Nat) → Nat
  | [] => 2
  | (k, p) :: rest => if strContains lowerName k then p else keywordScan lowerName rest

def specPriority (name : String) : Nat :=
  keywordScan (lowerStr name) specKeywords

/-- C4: the classifier agrees with the spec's first-match-wins scan over the
keyword table, and any name containing "percussion" (case-insensitively)
classifies as priority 0. -/
theorem classifyName_c4 :
    (∀ name : String, classifyName name = specPriority name) ∧
    (∀ name : String, strContains (lowerStr name) "percussion" = true →
      classifyName name = 0) := by
  constructor
  · intro name
    rfl
  · intro name h
    simp [classifyName, h]

theorem classifyName_c4_witness : classifyName "Latin PERCUSSION and bass" = 0 :=
  classifyName_c4.2 "Latin PERCUSSION and bass" (by decide)

/-! ## NameVariationExpander: `getGameVariations`

From src/components/MidiPlayer.tsx lines 15-78.  A JavaScript `Set` keeps
insertion order and drops duplicates; it is modelled as a duplicate-free
list with `addVar`.  Note that `words.reverse()` mutates the array in
JavaScript, so every later use of `words` sees the reversed order. -/

/-- Is `c` one of `a`-`z` or `0`-`9`?  (The regex class `[a-z0-9]`.) -/
def isLowerAlnum (c : Char) : Bool :=
  ('a' ≤ c && c ≤ 'z') || ('0' ≤ c && c ≤ '9')

/-- `s.replace(/[^a-z0-9]/g, '')`. -/
def filterAlnum (s : String) : String :=
  ⟨s.data.filter isLowerAlnum⟩

/-- `s.replace(/\s+/g, '')`. -/
def removeWs (s : String) : String :=
  ⟨s.data.filter (fun c => !isWhiteChar c)⟩

/-- Splitting on `/\s+/` as JavaScript `split` does: the string is cut at
each maximal whitespace run, an empty fragment appearing for a leading or
trailing run.  `inRun` records whether the scanner is inside a whitespace
run whose preceding fragment was already emitted. -/
def splitWsGo : Bool → List Char → List Char → List String
  | false, [], cur => [⟨cur.reverse⟩]
  | false, c :: rest, cur =>
    if isWhiteChar c then ⟨cur.reverse⟩ :: splitWsGo true rest [] else splitWsGo false rest (c :: cur)
  | true, [], _ => [""]
  | true, c :: rest, cur =>
    if isWhiteChar c then splitWsGo true rest cur else splitWsGo false rest [c]

/-- `s.split(/\s+/)`. -/
def splitWs (s : String) : List String :=
  splitWsGo false s.data []

/-- `parts.join(sep)`. -/
def joinWith (sep : String) : List String → String
  | [] => ""
  | [x] => x
  | x :: xs => x ++ sep ++ joinWith sep xs

/-- `s.replace(/\s+/g, '-')`: replacing every match of a global regex is
splitting at the matches and joining with the replacement. -/
def wsToHyphen (s : String) : String :=
  joinWith "-" (splitWs s)

/-- `s.replace(pat, rep)` with a string pattern: only the first occurrence
is replaced; the string is returned unchanged if `pat` does not occur. -/
def replFirstL (pat rep : List Char) : List Char → List Char
  | [] => []
  | c :: rest =>
    if startsWithL pat (c :: rest) then rep ++ (c :: rest).drop pat.length
    else c :: replFirstL pat rep rest

def replaceFirst (s pat rep : String) : String :=
  ⟨replFirstL pat.data rep.data s.data⟩

/-- `Set.prototype.add`: append unless already present. -/
def addVar (l : List String) (v : String) : List String :=
  if v ∈ l then l else l ++ [v]

def addVars (l : List String) (vs : List String) : List String :=
  vs.foldl addVar l

/-- The `gameNameVariations` alias table, in source order. -/
def gameNameVariationsTable : List (String × List String) :=
  [ ("mario", ["super mario", "super mario bros", "mario bros", "mario brothers"])
  , ("zelda", ["legend of zelda", "zelda", "the legend of zelda"])
  , ("metroid", ["metroid", "metroid prime"])
  , ("pokemon", ["pokemon", "pokémon", "pocket monsters"])
  , ("sonic", ["sonic the hedgehog", "sonic", "sonic hedgehog"])
  , ("final fantasy", ["final fantasy", "ff"])
  , ("street fighter", ["street fighter", "sf"])
  , ("mortal kombat", ["mortal kombat", "mk"])
  , ("donkey kong", ["donkey kong", "dk"])
  , ("castlevania", ["castlevania", "vampire killer"])
  , ("megaman", ["megaman", "mega man", "rockman"])
  , ("contra", ["contra", "probotector"])
  , ("tetris", ["tetris", "tetris classic"])
  , ("pacman", ["pacman", "pac-man", "pac man"])
  , ("space invaders", ["space invaders", "spaceinvaders"])
  , ("galaga", ["galaga", "galaxian"])
  , ("frogger", ["frogger", "frog"])
  , ("dig dug", ["dig dug", "digdug"])
  , ("qbert", ["qbert", "q-bert", "q bert"])
  , ("bubble bobble", ["bubble bobble", "bubblebobble"])
  ]

def getGameVariations (gameName : String) : List String :=
  let lowerName := lowerStr gameName
  let v0 : List String := [lowerName]
  -- known variations: every table key that is a substring of the input
  let v1 := gameNameVariationsTable.foldl
    (fun acc kv => if strContains lowerName kv.1 then addVars acc kv.2 else acc) v0
  -- common transformations
  let v2 := addVar v1 (filterAlnum lowerName)
  let v3 := addVar v2 (removeWs lowerName)
  let v4 := addVar v3 (wsToHyphen lowerName)
  -- word-order variations; `words.reverse()` mutates, so later uses of the
  -- word array see the reversed order
  let words := splitWs lowerName
  let wordsR := if words.length > 1 then words.reverse else words
  let v5 := if words.length > 1 then addVar v4 (joinWith " " words.reverse) else v4
  let v6 := if words.length > 1 then addVar v5 (joinWith "" wordsR) else v5
  let v7 := if words.length > 1 then addVar v6 (joinWith "-" wordsR) else v6
  -- common abbreviations
  let v8 := if strContains lowerName "super" then addVar v7 (replaceFirst lowerName "super" "s") else v7
  let v9 := if strContains lowerName "mario" then addVar v8 "mario" else v8
  let v10 := if strContains lowerName "bros" then addVar v9 (replaceFirst lowerName "bros" "brothers") else v9
  let v11 := if strContains lowerName "brothers" then addVar v10 (replaceFirst lowerName "brothers" "bros") else v10
  -- partial matches: every word longer than 3 characters
  wordsR.foldl (fun acc w => if w.length > 3 then addVar acc w else acc) v11

/-- C9: the variation set for "Super Mario Bros" includes the six strings
required by the spec. -/
theorem getGameVariations_c9 :
    "super mario bros" ∈ getGameVariations "Super Mario Bros" ∧
    "supermariobros" ∈ getGameVariations "Super Mario Bros" ∧
    "super-mario-bros" ∈ getGameVariations "Super Mario Bros" ∧
    "s mario bros" ∈ getGameVariations "Super Mario Bros" ∧
    "super mario brothers" ∈ getGameVariations "Super Mario Bros" ∧
    "mario" ∈ getGameVariations "Super Mario Bros" := by
  decide

/-! ## FuzzyMatcher: the match-judging step of `handleGameSubmit`

From src/components/MidiPlayer.tsx line 836:

  `const isSimilar = bestMatch && bestMatch.score && bestMatch.score < 0.8;`

The scoring itself is done by the external Fuse.js library; the repository's
own logic is the judgement above, applied to the best (lowest) score, or to
no score when no candidate matched at all.  JavaScript `&&` short-circuits
on falsy values and the number `0` is falsy, so a best score of exactly `0`
makes the whole expression falsy.  Scores are modelled as rationals. -/

def isSimilar (bestScore : Option ℚ) : Bool :=
  match bestScore with
  | none => false
  | some sc => (!decide (sc = 0)) && decide (sc < 0.8)

/-- C2: at the failing input — a best candidate with a perfect score of 0 —
the code judges the guess as not matched, although 0 is strictly below the
acceptance threshold 0.8, so the spec's rule says it matches. -/
theorem isSimilar_c2_bug :
    isSimilar (some 0) = false ∧ (0 : ℚ) < 0.8 := by
  constructor
  · rfl
  · norm_num

/-! ## Data model: tracks and the session state

`Track` is the interface at the top of src/components/MidiPlayer.tsx.  The
session state gathers the pieces of React/engine state the claims are
about: the track list, the token balance, the prize, the playback position,
the playing flag, and the audio engine's per-channel mute table. -/

structure Track where
  id : Nat
  name : String
  isMuted : Bool
  priority : Nat
deriving DecidableEq

structure RState where
  tracks : List Track
  tokens : Nat
  prize : Nat
  pos : Nat
  playing : Bool
  engine : Int → Bool

/-- Point update of the engine's mute table. -/
def updE (e : Int → Bool) (c : Int) (v : Bool) : Int → Bool :=
  fun c' => if c' = c then v else e c'

/-! ### The track-id → channel-index mappings, one per call site

The source inlines the arithmetic at each call site; these definitions name
what each site computes.  Initialization (line 347) writes channel `i` for
track index `i`; `toggleMute` (line 635) computes `trackId - 1`;
`handleRestart` (line 756) writes channel `track.id`; `handleMoreInstruments`
(line 799) writes channel `track.id`; `verifyTrackStates` (line 697)
queries and writes channel `track.id - 1`. -/

def initChannel (i : Nat) : Int := i

def toggleChannel (trackId : Nat) : Int := (trackId : Int) - 1

def restartChannel (trackId : Nat) : Int := trackId

def revealChannel (trackId : Nat) : Int := trackId

def verifyChannel (trackId : Nat) : Int := (trackId : Int) - 1

/-- C1 counterexample: `toggleMute` and `handleRestart` do not translate a
track id to the same channel; at track id 0 one addresses channel -1 and
the other channel 0, so no single mapping is applied uniformly. -/
theorem channelMaps_c1_counterexample : toggleChannel 0 ≠ restartChannel 0 := by
  decide

/-- C1 (amended): the code uses exactly two mappings — the identity at
initialization, restart and reveal, and `id - 1` at `toggleMute` and
`verifyTrackStates` — and no single mapping covers every call site. -/
theorem channelMaps_c1_amended :
    (∀ i : Nat, initChannel i = restartChannel i) ∧
    (∀ i : Nat, restartChannel i = revealChannel i) ∧
    (∀ i : Nat, toggleChannel i = verifyChannel i) ∧
    ¬ (∀ i : Nat, toggleChannel i = restartChannel i) := by
  refine ⟨fun i => rfl, fun i => rfl, fun i => rfl, fun h => ?_⟩
  have := h 0
  simp [toggleChannel, restartChannel] at this

/-! ## Track initialization (`loadRandomMidiFile`, lines 237-363)

First pass: build one track per index with its display name (defaulting to
"Track i" when the metadata name is absent, empty or all whitespace), its
priority class, and `isMuted := true`, while folding the index of the
first track attaining the strictly smallest priority.  Second pass: mute
every track except that one, mirroring each flag to engine channel `i`. -/

/-- Name resolution: `trackNames[i]` is used when present and truthy (an
empty string is falsy in JavaScript), and the default label is restored
when the chosen name trims to the empty string. -/
def trackNameFor (i : Nat) (raw : Option String) : String :=
  match raw with
  | some s => if isBlank s then s!"Track {i}" else s
  | none => s!"Track {i}"

def buildTracksFrom (k : Nat) : List (Option String) → List Track
  | [] => []
  | r :: rs =>
    let nm := trackNameFor k r
    { id := k, name := nm, isMuted := true, priority := classifyName nm }
      :: buildTracksFrom (k + 1) rs

def buildTracks (raws : List (Option String)) : List Track :=
  buildTracksFrom 0 raws

/-- The running fold of `firstUnmutedTrack`: starting from best index `j`
with best priority `p`, scan the remaining tracks (the next one sitting at
absolute index `k`), replacing the best on a strictly smaller priority. -/
def bestFrom (j p k : Nat) : List Track → Nat × Nat
  | [] => (j, p)
  | t :: ts =>
    if t.priority < p then bestFrom k t.priority (k + 1) ts
    else bestFrom j p (k + 1) ts

/-- The `firstUnmutedTrack` / `highestPriorityTrack` fold (`-1` modelled as
`none`): the lowest index attaining the minimal priority value. -/
def firstUnmutedIdx : List Track → Option Nat
  | [] => none
  | t :: ts => some (bestFrom 0 t.priority 1 ts).1

/-- The second pass over the track list: `isMuted := (index ≠ chosen)`. -/
def applyMutesFrom (k : Nat) (j0 : Option Nat) : List Track → List Track
  | [] => []
  | t :: ts => { t with isMuted := decide (some k ≠ j0) } :: applyMutesFrom (k + 1) j0 ts

/-- The second pass's engine writes: `muteChannel(i, shouldMute)` with the
channel index taken to be the track index. -/
def writeTracksEngine (e : Int → Bool) (k : Nat) : List Track → (Int → Bool)
  | [] => e
  | t :: ts => writeTracksEngine (updE e (initChannel k) t.isMuted) (k + 1) ts

def initState (raws : List (Option String)) (tok prize : Nat) (e0 : Int → Bool) : RState :=
  let ts := buildTracks raws
  let j0 := firstUnmutedIdx ts
  let ts' := applyMutesFrom 0 j0 ts
  { tracks := ts'
    tokens := tok
    prize := prize
    pos := 0
    playing := false
    engine := writeTracksEngine e0 0 ts' }

/-! ### Lemmas about the initialization folds -/

theorem bestFrom_le (l : List Track) :
    ∀ j p k, (bestFrom j p k l).2 ≤ p := by
  induction l with
  | nil => intro j p k; simp [bestFrom]
  | cons t ts ih =>
    intro j p k
    simp only [bestFrom]
    by_cases h : t.priority < p
    · rw [if_pos h]
      exact le_trans (ih k t.priority (k + 1)) (le_of_lt h)
    · rw [if_neg h]
      exact ih j p (k + 1)

theorem bestFrom_min (l : List Track) :
    ∀ j p k i t, l.get? i = some t → (bestFrom j p k l).2 ≤ t.priority := by
  induction l with
  | nil => intro j p k i t h; simp at h
  | cons t0 ts ih =>
    intro j p k i t h
    simp only [bestFrom]
    match i with
    | 0 =>
      have ht : t0 = t := by simpa using h
      subst ht
      by_cases h0 : t0.priority < p
      · rw [if_pos h0]; exact bestFrom_le ts k t0.priority (k + 1)
      · rw [if_neg h0]
        exact le_trans (bestFrom_le ts j p (k + 1)) (le_of_not_lt h0)
    | i' + 1 =>
      simp only [List.get?] at h
      by_cases h0 : t0.priority < p
      · rw [if_pos h0]; exact ih k t0.priority (k + 1) i' t h
      · rw [if_neg h0]; exact ih j p (k + 1) i' t h

theorem bestFrom_cases (l : List Track) :
    ∀ j p k,
      ((bestFrom j p k l).1 = j ∧ (bestFrom j p k l).2 = p) ∨
      (∃ i t, l.get? i = some t ∧ (bestFrom j p k l).1 = k + i ∧
        (bestFrom j p k l).2 = t.priority ∧ t.priority < p ∧
        (∀ i' t', i' < i → l.get? i' = some t' → t.priority < t'.priority)) := by
  induction l with
  | nil => intro j p k; left; simp [bestFrom]
  | cons t0 ts ih =>
    intro j p k
    simp only [bestFrom]
    by_cases h0 : t0.priority < p
    · rw [if_pos h0]
      rcases ih k t0.priority (k + 1) with ⟨h1, h2⟩ | ⟨i, t, hget, hj, hp, hlt, hmin⟩
      · right
        exact ⟨0, t0, by simp, by omega, by rw [h2], h0, fun i' t' hi' _ => absurd hi' (Nat.not_lt_zero i')⟩
      · right
        refine ⟨i + 1, t, by simpa using hget, by omega, hp, lt_trans hlt h0, ?_⟩
        intro i' t' hi' hget'
        match i' with
        | 0 =>
          simp at hget'
          subst hget'
          exact hlt
        | i'' + 1 =>
          exact hmin i'' t' (by omega) (by simpa using hget')
    · rw [if_neg h0]
      rcases ih j p (k + 1) with ⟨h1, h2⟩ | ⟨i, t, hget, hj, hp, hlt, hmin⟩
      · left; exact ⟨h1, h2⟩
      · right
        refine ⟨i + 1, t, by simpa using hget, by omega, hp, hlt, ?_⟩
        intro i' t' hi' hget'
        match i' with
        | 0 =>
          simp at hget'
          subst hget'
          exact lt_of_lt_of_le hlt (le_of_not_lt h0)
        | i'' + 1 =>
          exact hmin i'' t' (by omega) (by simpa using hget')

/-- The chosen index points at a track whose priority is the global
minimum, every strictly earlier track having a strictly larger priority. -/
theorem firstUnmutedIdx_spec (l : List Track) (hne : l ≠ []) :
    ∃ j t, firstUnmutedIdx l = some j ∧ l.get? j = some t ∧
      (∀ i t', l.get? i = some t' → t.priority ≤ t'.priority) ∧
      (∀ i t', i < j → l.get? i = some t' → t.priority < t'.priority) := by
  match l, hne with
  | t0 :: ts, _ =>
    simp only [firstUnmutedIdx]
    rcases bestFrom_cases ts 0 t0.priority 1 with ⟨h1, h2⟩ | ⟨i, t, hget, hj, hp, hlt, hmin⟩
    · refine ⟨0, t0, by rw [h1], rfl, ?_, ?_⟩
      · intro i t' hget'
        match i with
        | 0 =>
          have ht : t0 = t' := by simpa using hget'
          rw [ht]
        | i' + 1 =>
          have := bestFrom_min ts 0 t0.priority 1 i' t' hget'
          have h2' := bestFrom_le ts 0 t0.priority 1
          omega
      · intro i t' hi _
        omega
    · have hj' : (1 : Nat) + i = i + 1 := Nat.add_comm 1 i
      refine ⟨i + 1, t, by rw [hj, hj'], hget, ?_, ?_⟩
      · intro i' t' hget'
        match i' with
        | 0 =>
          have ht : t0 = t' := by simpa using hget'
          rw [← ht]
          omega
        | i'' + 1 =>
          have := bestFrom_min ts 0 t0.priority 1 i'' t' hget'
          omega
      · intro i' t' hi' hget'
        match i' with
        | 0 =>
          have ht : t0 = t' := by simpa using hget'
          rw [← ht]
          omega
        | i'' + 1 =>
          exact hmin i'' t' (by omega) hget'

/-- Number of unmuted tracks. -/
def countUnmuted (l : List Track) : Nat :=
  l.countP (fun t => !t.isMuted)

theorem applyMutesFrom_get? (j0 : Option Nat) (l : List Track) :
    ∀ k i, (applyMutesFrom k j0 l).get? i =
      (l.get? i).map (fun t => { t with isMuted := decide (some (k + i) ≠ j0) }) := by
  induction l with
  | nil => intro k i; simp [applyMutesFrom]
  | cons t ts ih =>
    intro k i
    match i with
    | 0 => simp [applyMutesFrom]
    | i' + 1 =>
      simp only [applyMutesFrom, List.get?]
      rw [ih (k + 1) i']
      have : k + 1 + i' = k + (i' + 1) := by omega
      rw [this]

theorem length_applyMutesFrom (j0 : Option Nat) (l : List Track) :
    ∀ k, (applyMutesFrom k j0 l).length = l.length := by
  induction l with
  | nil => intro k; rfl
  | cons t ts ih => intro k; simp [applyMutesFrom, ih]

theorem countUnmuted_cons (t : Track) (l : List Track) :
    countUnmuted (t :: l) = countUnmuted l + (if t.isMuted = false then 1 else 0) := by
  simp only [countUnmuted, List.countP_cons]
  cases h : t.isMuted <;> simp [h]

theorem countUnmuted_applyMutesFrom (j : Nat) (l : List Track) :
    ∀ k, countUnmuted (applyMutesFrom k (some j) l) =
      if k ≤ j ∧ j < k + l.length then 1 else 0 := by
  induction l with
  | nil =>
    intro k
    simp only [applyMutesFrom, countUnmuted, List.countP_nil, List.length_nil]
    rw [if_neg (by omega)]
  | cons t ts ih =>
    intro k
    show countUnmuted ({ t with isMuted := decide (some k ≠ some j) }
      :: applyMutesFrom (k + 1) (some j) ts) = _
    rw [countUnmuted_cons, ih (k + 1)]
    simp only [List.length_cons]
    by_cases hkj : k = j
    · subst hkj
      have hd : (decide (some k ≠ some k) : Bool) = false := by simp
      rw [hd]
      have hf : ¬ (k + 1 ≤ k ∧ k < k + 1 + ts.length) := by omega
      have ht : k ≤ k ∧ k < k + (ts.length + 1) := by omega
      rw [if_neg hf, if_pos ht]
      simp
    · have hd : (decide (some k ≠ some j) : Bool) = true := by simp [hkj]
      rw [hd]
      by_cases h2 : k + 1 ≤ j ∧ j < k + 1 + ts.length
      · have ht : k ≤ j ∧ j < k + (ts.length + 1) := by omega
        rw [if_pos h2, if_pos ht]
        simp
      · have hf : ¬ (k ≤ j ∧ j < k + (ts.length + 1)) := by omega
        rw [if_neg h2, if_neg hf]
        simp

theorem length_buildTracksFrom (rs : List (Option String)) :
    ∀ k, (buildTracksFrom k rs).length = rs.length := by
  induction rs with
  | nil => intro k; rfl
  | cons r rs ih => intro k; simp [buildTracksFrom, ih]

theorem buildTracksFrom_id (rs : List (Option String)) :
    ∀ k i t, (buildTracksFrom k rs).get? i = some t → t.id = k + i := by
  induction rs with
  | nil => intro k i t h; simp [buildTracksFrom] at h
  | cons r rs ih =>
    intro k i t h
    match i with
    | 0 =>
      simp [buildTracksFrom] at h
      rw [← h]
      simp
    | i' + 1 =>
      have := ih (k + 1) i' t h
      omega

/-- C3: on a non-empty track list, initialization leaves exactly one track
unmuted, and the unmuted one has the globally minimal priority value, every
track at a strictly smaller index having a strictly larger priority. -/
theorem initState_c3 (raws : List (Option String)) (tok prize : Nat)
    (e0 : Int → Bool) (hne : raws ≠ []) :
    countUnmuted (initState raws tok prize e0).tracks = 1 ∧
    (∀ i t, (initState raws tok prize e0).tracks.get? i = some t →
      t.isMuted = false →
      (∀ i' t', (initState raws tok prize e0).tracks.get? i' = some t' →
        t.priority ≤ t'.priority) ∧
      (∀ i' t', i' < i → (initState raws tok prize e0).tracks.get? i' = some t' →
        t.priority < t'.priority)) := by
  have hbne : buildTracks raws ≠ [] := by
    intro h
    have := length_buildTracksFrom raws 0
    rw [show buildTracksFrom 0 raws = buildTracks raws from rfl, h] at this
    exact hne (List.length_eq_zero.mp this.symm)
  obtain ⟨j, tj, hj, hget, hmin, hstrict⟩ := firstUnmutedIdx_spec (buildTracks raws) hbne
  have hjlen : j < (buildTracks raws).length := by
    rcases List.get?_eq_some.mp hget with ⟨h, _⟩
    exact h
  have htracks : (initState raws tok prize e0).tracks =
      applyMutesFrom 0 (some j) (buildTracks raws) := by
    simp only [initState, hj]
  constructor
  · rw [htracks, countUnmuted_applyMutesFrom j (buildTracks raws) 0]
    rw [if_pos (by omega)]
  · intro i t hti htm
    rw [htracks] at hti
    rw [applyMutesFrom_get? (some j) (buildTracks raws) 0 i] at hti
    rcases hb : (buildTracks raws).get? i with _ | tb
    · rw [hb] at hti; simp at hti
    · rw [hb] at hti
      have hti' : { tb with isMuted := decide (some (0 + i) ≠ some j) } = t := by
        simpa using hti
      have hij : i = j := by
        by_contra hne'
        rw [← hti'] at htm
        simp at htm
        omega
      subst hij
      have htb : tb = tj := by
        rw [hb] at hget
        exact Option.some.inj hget
      have htp : t.priority = tj.priority := by
        rw [← hti', htb]
      constructor
      · intro i' t' hti2
        rw [htracks, applyMutesFrom_get? (some i) (buildTracks raws) 0 i'] at hti2
        rcases hb' : (buildTracks raws).get? i' with _ | tb'
        · rw [hb'] at hti2; simp at hti2
        · rw [hb'] at hti2
          have hti2' : { tb' with isMuted := decide (some (0 + i') ≠ some i) } = t' := by
            simpa using hti2
          have hp' : t'.priority = tb'.priority := by rw [← hti2']
          rw [htp, hp']
          exact hmin i' tb' hb'
      · intro i' t' hi' hti2
        rw [htracks, applyMutesFrom_get? (some i) (buildTracks raws) 0 i'] at hti2
        rcases hb' : (buildTracks raws).get? i' with _ | tb'
        · rw [hb'] at hti2; simp at hti2
        · rw [hb'] at hti2
          have hti2' : { tb' with isMuted := decide (some (0 + i') ≠ some i) } = t' := by
            simpa using hti2
          have hp' : t'.priority = tb'.priority := by rw [← hti2']
          rw [htp, hp']
          exact hstrict i' tb' hi' hb'

/-- C3 witness: the spec's example — names Lead, Bass, Percussion give
priorities 4, 1, 0, and initialization unmutes exactly one track. -/
theorem initState_c3_witness :
    countUnmuted (initState [some "Lead", some "Bass", some "Percussion"] 5 10
      (fun _ => false)).tracks = 1 :=
  (initState_c3 [some "Lead", some "Bass", some "Percussion"] 5 10
    (fun _ => false) (by decide)).1

/-! ## RevealSequencer: `handleMoreInstruments` (lines 771-806)

The handler maps each track to a copy carrying its `originalIndex`, sorts
with the comparator

  `(a, b) => { if (a.isMuted !== b.isMuted) return a.isMuted ? -1 : 1;
               return a.priority - b.priority; }`

(muted tracks first, then ascending priority; JavaScript's `sort` is
stable, modelled here by a stable insertion sort), takes the first muted
entry of the sorted list, unmutes the track at its `originalIndex`, and
writes engine channel `track.id`.  Token and prize are decremented first,
regardless of whether anything was left to unmute. -/

structure ETrack where
  id : Nat
  name : String
  isMuted : Bool
  priority : Nat
  originalIndex : Nat
deriving DecidableEq

/-- `{...track, originalIndex: index}`. -/
def mkE (i : Nat) (t : Track) : ETrack :=
  { id := t.id, name := t.name, isMuted := t.isMuted, priority := t.priority,
    originalIndex := i }

def enumFrom (k : Nat) : List Track → List ETrack
  | [] => []
  | t :: ts => mkE k t :: enumFrom (k + 1) ts

/-- The comparator as a weak order: `a` may be placed before `b`. -/
def cmpLe (a b : ETrack) : Bool :=
  if a.isMuted ≠ b.isMuted then a.isMuted else decide (a.priority ≤ b.priority)

/-- Stable insertion of `a` into `s`: `a` goes before the first element it
may precede, so among comparator-ties the earlier-inserted element wins. -/
def insertE (a : ETrack) : List ETrack → List ETrack
  | [] => [a]
  | b :: s => if cmpLe a b then a :: b :: s else b :: insertE a s

/-- Stable sort by `cmpLe`, modelling `Array.prototype.sort` (stable per
the ECMAScript specification). -/
def sortE : List ETrack → List ETrack
  | [] => []
  | a :: s => insertE a (sortE s)

def allUnmutedB (l : List ETrack) : Bool :=
  l.all (fun e => !e.isMuted)

/-- No muted entry appears after an unmuted one. -/
def mutedFirstB : List ETrack → Bool
  | [] => true
  | a :: s => if a.isMuted then mutedFirstB s else allUnmutedB s

theorem allUnmutedB_insertE (a : ETrack) (s : List ETrack) :
    allUnmutedB (insertE a s) = (!a.isMuted && allUnmutedB s) := by
  induction s with
  | nil => simp [insertE, allUnmutedB]
  | cons b s ih =>
    simp only [insertE]
    by_cases h : cmpLe a b
    · rw [if_pos h]
      simp [allUnmutedB, List.all_cons]
    · rw [if_neg h]
      simp only [allUnmutedB, List.all_cons] at *
      rw [ih]
      cases a.isMuted <;> cases b.isMuted <;> simp

theorem allUnmutedB_find? (l : List ETrack) (h : allUnmutedB l = true) :
    l.find? (fun e => e.isMuted) = none := by
  rw [List.find?_eq_none]
  intro x hx
  simp only [allUnmutedB, List.all_eq_true] at h
  have := h x hx
  simp at this
  simp [this]

theorem mutedFirstB_insertE (a : ETrack) (s : List ETrack)
    (hs : mutedFirstB s = true) : mutedFirstB (insertE a s) = true := by
  induction s with
  | nil =>
    simp [insertE, mutedFirstB, allUnmutedB]
  | cons b s ih =>
    simp only [insertE]
    by_cases hc : cmpLe a b
    · rw [if_pos hc]
      by_cases ha : a.isMuted
      · simp only [mutedFirstB, if_pos ha]
        exact hs
      · -- `a` unmuted may precede `b` only if `b` is unmuted too
        have hb : a.isMuted = b.isMuted := by
          by_contra hne
          simp only [cmpLe, if_pos (show a.isMuted ≠ b.isMuted from hne)] at hc
          exact ha (by simpa using hc)
        simp only [mutedFirstB, if_neg ha]
        rw [allUnmutedB, List.all_cons]
        have hbu : b.isMuted = false := by
          rw [← hb]
          exact Bool.eq_false_iff.mpr ha
        simp only [mutedFirstB, hbu, if_neg (by simp : ¬ (false : Bool) = true)] at hs
        simp only [hbu, allUnmutedB, List.all_cons, Bool.not_false, Bool.true_and]
        exact hs
    · rw [if_neg hc]
      by_cases hb : b.isMuted
      · simp only [mutedFirstB, if_pos hb] at hs ⊢
        exact ih hs
      · -- `b` unmuted could not be placed before muted `a`, so `a` is unmuted
        have ha : a.isMuted = false := by
          by_contra hne
          have ha' : a.isMuted = true := by
            cases h : a.isMuted
            · exact absurd h hne
            · rfl
          have : cmpLe a b = true := by
            simp only [cmpLe]
            rw [if_pos]
            · exact ha'
            · rw [ha']
              simp [hb]
          exact hc this
        simp only [mutedFirstB, if_neg hb] at hs
        simp only [mutedFirstB, if_neg hb]
        rw [allUnmutedB_insertE]
        simp [ha, hs]

theorem mutedFirstB_sortE (l : List ETrack) : mutedFirstB (sortE l) = true := by
  induction l with
  | nil => rfl
  | cons a s ih => exact mutedFirstB_insertE a (sortE s) ih

/-- First muted entry, keeping the earlier of two priority-ties: what a
stable muted-first priority sort followed by `find(t => t.isMuted)`
computes. -/
def firstMin : List ETrack → Option ETrack
  | [] => none
  | a :: s =>
    if a.isMuted then
      match firstMin s with
      | some m => if m.priority < a.priority then some m else some a
      | none => some a
    else firstMin s

theorem find?_insertE_muted (a : ETrack) (S : List ETrack)
    (ha : a.isMuted = true) (hS : mutedFirstB S = true) :
    (insertE a S).find? (fun e => e.isMuted) =
      some (match S.find? (fun e => e.isMuted) with
            | some m => if m.priority < a.priority then m else a
            | none => a) := by
  cases S with
  | nil => simp [insertE, ha]
  | cons b s =>
    by_cases hc : cmpLe a b
    · rw [show insertE a (b :: s) = a :: b :: s by simp [insertE, hc]]
      rw [List.find?_cons_of_pos _ ha]
      cases hb : b.isMuted with
      | true =>
        rw [List.find?_cons_of_pos _ hb]
        -- `a` muted may precede muted `b` only when `a.priority ≤ b.priority`
        have hp : a.priority ≤ b.priority := by
          simp only [cmpLe, ha, hb] at hc
          rw [if_neg (by simp)] at hc
          simpa using hc
        simp only []
        rw [if_neg (by omega)]
      | false =>
        rw [List.find?_cons_of_neg _ (by simp [hb])]
        have hall : allUnmutedB s = true := by
          simpa [mutedFirstB, hb] using hS
        rw [allUnmutedB_find? s hall]
    · rw [show insertE a (b :: s) = b :: insertE a s by simp [insertE, hc]]
      -- muted `a` refused before `b` forces `b` muted with smaller priority
      have hb : b.isMuted = true := by
        by_contra hbne
        have : cmpLe a b = true := by
          simp only [cmpLe]
          rw [if_pos]
          · exact ha
          · rw [ha]
            simp [Bool.eq_false_iff.mpr hbne]
        exact hc this
      have hp : b.priority < a.priority := by
        simp only [cmpLe, ha, hb] at hc
        rw [if_neg (by simp)] at hc
        simpa using hc
      rw [List.find?_cons_of_pos _ hb, List.find?_cons_of_pos _ hb]
      simp only []
      rw [if_pos hp]

theorem find?_insertE_unmuted (a : ETrack) (S : List ETrack)
    (ha : a.isMuted = false) (hS : mutedFirstB S = true) :
    (insertE a S).find? (fun e => e.isMuted) = S.find? (fun e => e.isMuted) := by
  induction S with
  | nil => simp [insertE, ha]
  | cons b s ih =>
    by_cases hc : cmpLe a b
    · rw [show insertE a (b :: s) = a :: b :: s by simp [insertE, hc]]
      rw [List.find?_cons_of_neg _ (by simp [ha])]
    · rw [show insertE a (b :: s) = b :: insertE a s by simp [insertE, hc]]
      cases hb : b.isMuted with
      | true =>
        rw [List.find?_cons_of_pos _ hb, List.find?_cons_of_pos _ hb]
      | false =>
        rw [List.find?_cons_of_neg _ (by simp [hb]), List.find?_cons_of_neg _ (by simp [hb])]
        have hs' : mutedFirstB s = true := by
          have hall : allUnmutedB s = true := by simpa [mutedFirstB, hb] using hS
          cases s with
          | nil => rfl
          | cons c cs =>
            have hcu : c.isMuted = false := by
              have := List.all_eq_true.mp hall c (by simp)
              simpa using this
            simp only [mutedFirstB, hcu, if_neg (by simp : ¬ (false : Bool) = true)]
            have : allUnmutedB cs = true := by
              simp only [allUnmutedB, List.all_eq_true] at hall ⊢
              intro x hx
              exact hall x (by simp [hx])
            exact this
        exact ih hs'

/-- The first muted entry of the stable sort is the earliest
minimal-priority muted entry of the input. -/
theorem find?_sortE (l : List ETrack) :
    (sortE l).find? (fun e => e.isMuted) = firstMin l := by
  induction l with
  | nil => rfl
  | cons a s ih =>
    show (insertE a (sortE s)).find? (fun e => e.isMuted) = _
    cases ha : a.isMuted with
    | true =>
      rw [find?_insertE_muted a (sortE s) ha (mutedFirstB_sortE s), ih]
      cases hm : firstMin s with
      | none => simp [firstMin, ha, hm]
      | some m =>
        by_cases hp : m.priority < a.priority
        · simp [firstMin, ha, hm, hp]
        · simp [firstMin, ha, hm, hp]
    | false =>
      rw [find?_insertE_unmuted a (sortE s) ha (mutedFirstB_sortE s), ih]
      simp [firstMin, ha]

/-- Modelled from the spec's words: among currently muted tracks, the one
with the lowest priority value, ties broken by the earliest position;
returned together with its position in the list. -/
def specSelectIdx : List Track → Option (Nat × Track)
  | [] => none
  | t :: ts =>
    match specSelectIdx ts with
    | none => if t.isMuted then some (0, t) else none
    | some (j, m) =>
      if t.isMuted ∧ t.priority ≤ m.priority then some (0, t) else some (j + 1, m)

/-- `newTracks[i].isMuted = false`. -/
def setUnmuted : List Track → Nat → List Track
  | [], _ => []
  | t :: ts, 0 => { t with isMuted := false } :: ts
  | t :: ts, i + 1 => t :: setUnmuted ts i

/-- What the spec says one reveal does to the track list. -/
def specReveal (l : List Track) : List Track :=
  match specSelectIdx l with
  | none => l
  | some (j, _) => setUnmuted l j

theorem firstMin_enumFrom (l : List Track) :
    ∀ k, firstMin (enumFrom k l) =
      (specSelectIdx l).map (fun jt => mkE (k + jt.1) jt.2) := by
  induction l with
  | nil => intro k; rfl
  | cons t ts ih =>
    intro k
    show firstMin (mkE k t :: enumFrom (k + 1) ts) = _
    cases hm : specSelectIdx ts with
    | none =>
      have hnone : firstMin (enumFrom (k + 1) ts) = none := by
        rw [ih (k + 1), hm]
        rfl
      cases ht : t.isMuted with
      | true =>
        simp only [firstMin, mkE, ht, if_pos rfl, hnone]
        simp [specSelectIdx, hm, ht, mkE]
      | false =>
        simp only [firstMin, mkE, ht, hnone]
        simp [specSelectIdx, hm, ht]
    | some jm =>
      obtain ⟨j, m⟩ := jm
      have harith : k + 1 + j = k + (j + 1) := by omega
      have hsome : firstMin (enumFrom (k + 1) ts) = some (mkE (k + (j + 1)) m) := by
        rw [ih (k + 1), hm]
        simp only [Option.map_some']
        rw [show mkE (k + 1 + j) m = mkE (k + (j + 1)) m from by rw [harith]]
      cases ht : t.isMuted with
      | true =>
        by_cases hp : m.priority < t.priority
        · have hc : ¬ (t.isMuted = true ∧ t.priority ≤ m.priority) := by
            intro hand
            exact absurd hand.2 (by omega)
          simp [firstMin, mkE, ht, hsome, specSelectIdx, hm, hp, hc]
          rw [if_neg (show ¬ t.priority ≤ m.priority by omega)]
          rfl
        · have hc : t.isMuted = true ∧ t.priority ≤ m.priority := ⟨ht, by omega⟩
          simp [firstMin, mkE, ht, hsome, specSelectIdx, hm, hp, hc]
      | false =>
        have hc : ¬ (t.isMuted = true ∧ t.priority ≤ m.priority) := by
          intro hand
          rw [ht] at hand
          simp at hand
        simp [firstMin, mkE, ht, hsome, specSelectIdx, hm, hc]

theorem specSelectIdx_none_iff (l : List Track) :
    specSelectIdx l = none ↔ ∀ t ∈ l, t.isMuted = false := by
  induction l with
  | nil => simp [specSelectIdx]
  | cons t ts ih =>
    cases hm : specSelectIdx ts with
    | none =>
      have hall := ih.mp hm
      have hcons : specSelectIdx (t :: ts) =
          (if t.isMuted = true then some (0, t) else none) := by
        simp only [specSelectIdx, hm]
      rw [hcons]
      cases ht : t.isMuted with
      | true =>
        rw [if_pos rfl]
        simp [ht]
      | false =>
        rw [if_neg (by simp)]
        simp only [true_iff]
        intro x hx
        rcases List.mem_cons.mp hx with h1 | h1
        · rw [h1]; exact ht
        · exact hall x h1
    | some jm =>
      obtain ⟨j, m⟩ := jm
      have hcons : specSelectIdx (t :: ts) =
          (if t.isMuted = true ∧ t.priority ≤ m.priority then some (0, t)
           else some (j + 1, m)) := by
        simp only [specSelectIdx, hm]
      rw [hcons]
      constructor
      · intro h
        by_cases hc : t.isMuted = true ∧ t.priority ≤ m.priority
        · rw [if_pos hc] at h
          exact absurd h (by simp)
        · rw [if_neg hc] at h
          exact absurd h (by simp)
      · intro hall
        have hts : specSelectIdx ts = none := by
          rw [ih]
          intro x hx
          exact hall x (by simp [hx])
        rw [hts] at hm
        exact absurd hm (by simp)

/-- The selected entry sits at the returned position, is muted, and is
minimal: every muted track has strictly larger priority or equal priority
at an index no smaller than the selected one. -/
theorem specSelectIdx_spec (l : List Track) (j : Nat) (t : Track)
    (h : specSelectIdx l = some (j, t)) :
    l.get? j = some t ∧ t.isMuted = true ∧
      (∀ i t', l.get? i = some t' → t'.isMuted = true →
        t.priority < t'.priority ∨ (t.priority = t'.priority ∧ j ≤ i)) := by
  induction l generalizing j t with
  | nil => simp [specSelectIdx] at h
  | cons t0 ts ih =>
    cases hm : specSelectIdx ts with
    | none =>
      have hall := (specSelectIdx_none_iff ts).mp hm
      have hcons : specSelectIdx (t0 :: ts) =
          (if t0.isMuted = true then some (0, t0) else none) := by
        simp only [specSelectIdx, hm]
      rw [hcons] at h
      cases ht0 : t0.isMuted with
      | true =>
        rw [if_pos ht0] at h
        simp only [Option.some.injEq, Prod.mk.injEq] at h
        obtain ⟨hj0, ht⟩ := h
        subst hj0
        subst ht
        refine ⟨rfl, ht0, ?_⟩
        intro i t' hget' hmut'
        match i with
        | 0 =>
          have heq : t0 = t' := by simpa using hget'
          right
          rw [heq]
          omega
        | i' + 1 =>
          have := hall t' (List.get?_mem hget')
          rw [this] at hmut'
          exact absurd hmut' (by simp)
      | false =>
        rw [if_neg (by simp [ht0])] at h
        exact absurd h (by simp)
    | some jm =>
      obtain ⟨j', m⟩ := jm
      obtain ⟨hgm, hmm, hminm⟩ := ih j' m hm
      have hcons : specSelectIdx (t0 :: ts) =
          (if t0.isMuted = true ∧ t0.priority ≤ m.priority then some (0, t0)
           else some (j' + 1, m)) := by
        simp only [specSelectIdx, hm]
      rw [hcons] at h
      by_cases hc : t0.isMuted = true ∧ t0.priority ≤ m.priority
      · rw [if_pos hc] at h
        simp only [Option.some.injEq, Prod.mk.injEq] at h
        obtain ⟨hj0, ht⟩ := h
        subst hj0
        subst ht
        refine ⟨rfl, hc.1, ?_⟩
        intro i t' hget' hmut'
        match i with
        | 0 =>
          have heq : t0 = t' := by simpa using hget'
          right
          rw [heq]
          omega
        | i' + 1 =>
          rcases hminm i' t' hget' hmut' with hlt | ⟨heq, _⟩
          · left
            have := hc.2
            omega
          · rcases Nat.lt_or_ge t0.priority t'.priority with h1 | h1
            · left; exact h1
            · right
              have := hc.2
              constructor
              · omega
              · omega
      · rw [if_neg hc] at h
        simp only [Option.some.injEq, Prod.mk.injEq] at h
        obtain ⟨hj1, hmt⟩ := h
        subst hj1
        subst hmt
        refine ⟨hgm, hmm, ?_⟩
        intro i t' hget' hmut'
        match i with
        | 0 =>
          have ht' : t0 = t' := by simpa using hget'
          rcases Decidable.not_and_iff_or_not.mp hc with h1 | h1
          · rw [← ht'] at hmut'
            exact absurd hmut' h1
          · left
            rw [← ht']
            omega
        | i' + 1 =>
          rcases hminm i' t' hget' hmut' with hlt | ⟨heq, hle⟩
          · left; exact hlt
          · right
            exact ⟨heq, by omega⟩

theorem length_setUnmuted (l : List Track) :
    ∀ j, (setUnmuted l j).length = l.length := by
  induction l with
  | nil => intro j; cases j <;> rfl
  | cons t ts ih =>
    intro j
    cases j with
    | zero => rfl
    | succ j' => simp [setUnmuted, ih j']

theorem get?_setUnmuted_self (l : List Track) :
    ∀ j t, l.get? j = some t →
      (setUnmuted l j).get? j = some { t with isMuted := false } := by
  induction l with
  | nil => intro j t h; simp at h
  | cons t0 ts ih =>
    intro j t h
    cases j with
    | zero =>
      have : t0 = t := by simpa using h
      subst this
      rfl
    | succ j' =>
      exact ih j' t h

theorem get?_setUnmuted_ne (l : List Track) :
    ∀ j i, i ≠ j → (setUnmuted l j).get? i = l.get? i := by
  induction l with
  | nil => intro j i _; cases j <;> rfl
  | cons t0 ts ih =>
    intro j i hne
    cases j with
    | zero =>
      cases i with
      | zero => exact absurd rfl hne
      | succ i' => rfl
    | succ j' =>
      cases i with
      | zero => rfl
      | succ i' => exact ih j' i' (by omega)

theorem countUnmuted_setUnmuted (l : List Track) :
    ∀ j t, l.get? j = some t → t.isMuted = true →
      countUnmuted (setUnmuted l j) = countUnmuted l + 1 := by
  induction l with
  | nil => intro j t h; simp at h
  | cons t0 ts ih =>
    intro j t h hm
    cases j with
    | zero =>
      have heq : t0 = t := by simpa using h
      subst heq
      show countUnmuted ({ t0 with isMuted := false } :: ts) = _
      rw [countUnmuted_cons, countUnmuted_cons]
      simp [hm]
    | succ j' =>
      show countUnmuted (t0 :: setUnmuted ts j') = _
      rw [countUnmuted_cons, countUnmuted_cons, ih j' t h hm]
      omega

/-! ### The reveal operation -/

def revealNext (s : RState) : RState :=
  -- `if (!synthRef.current || tokenBalance <= 0) return;`
  if s.tokens = 0 then s
  else
    -- token and prize decrease first, with a floor at 0
    let sorted := sortE (enumFrom 0 s.tracks)
    let next := sorted.find? (fun e => e.isMuted)
    match next with
    | some e =>
      { s with
        tracks := setUnmuted s.tracks e.originalIndex
        engine := updE s.engine (revealChannel e.id) false
        tokens := s.tokens - 1
        prize := s.prize - 2 }
    | none =>
      { s with tokens := s.tokens - 1, prize := s.prize - 2 }

def revealIter : Nat → RState → RState
  | 0, s => s
  | n + 1, s => revealNext (revealIter n s)

theorem revealNext_tokens (s : RState) : (revealNext s).tokens = s.tokens - 1 := by
  simp only [revealNext]
  by_cases h : s.tokens = 0
  · rw [if_pos h]
    omega
  · rw [if_neg h]
    cases hf : (sortE (enumFrom 0 s.tracks)).find? (fun e => e.isMuted) with
    | none => simp [hf]
    | some e => simp [hf]

theorem revealNext_tracks (s : RState) (hs : s.tokens ≠ 0) :
    (revealNext s).tracks = specReveal s.tracks := by
  simp only [revealNext, if_neg hs]
  have hfind : (sortE (enumFrom 0 s.tracks)).find? (fun e => e.isMuted) =
      (specSelectIdx s.tracks).map (fun jt => mkE jt.1 jt.2) := by
    rw [find?_sortE, firstMin_enumFrom s.tracks 0]
    cases specSelectIdx s.tracks with
    | none => rfl
    | some jt => simp [mkE]
  rw [hfind]
  cases hsel : specSelectIdx s.tracks with
  | none => simp [specReveal, hsel]
  | some jt =>
    obtain ⟨j, t⟩ := jt
    simp [specReveal, hsel, mkE]

theorem revealNext_tracks_zero (s : RState) (hs : s.tokens = 0) :
    revealNext s = s := by
  simp [revealNext, hs]

theorem buildTracks_ne_nil (raws : List (Option String)) (hne : raws ≠ []) :
    buildTracks raws ≠ [] := by
  intro h
  have hlen := length_buildTracksFrom raws 0
  rw [show buildTracksFrom 0 raws = buildTracks raws from rfl, h] at hlen
  exact hne (List.length_eq_zero.mp hlen.symm)

theorem initState_tracks_eq (raws : List (Option String)) (tok prize : Nat)
    (e0 : Int → Bool) :
    (initState raws tok prize e0).tracks =
      applyMutesFrom 0 (firstUnmutedIdx (buildTracks raws)) (buildTracks raws) := rfl

theorem initState_length (raws : List (Option String)) (tok prize : Nat)
    (e0 : Int → Bool) :
    (initState raws tok prize e0).tracks.length = raws.length := by
  rw [initState_tracks_eq, length_applyMutesFrom]
  exact length_buildTracksFrom raws 0

theorem initState_countUnmuted (raws : List (Option String)) (tok prize : Nat)
    (e0 : Int → Bool) (hne : raws ≠ []) :
    countUnmuted (initState raws tok prize e0).tracks = 1 := by
  obtain ⟨j, tj, hj, hget, _, _⟩ :=
    firstUnmutedIdx_spec (buildTracks raws) (buildTracks_ne_nil raws hne)
  have hjlen : j < (buildTracks raws).length := by
    rcases List.get?_eq_some.mp hget with ⟨h, _⟩
    exact h
  rw [initState_tracks_eq, hj, countUnmuted_applyMutesFrom j (buildTracks raws) 0]
  rw [if_pos (by omega)]

theorem countUnmuted_le_length (l : List Track) : countUnmuted l ≤ l.length :=
  List.countP_le_length _

theorem countUnmuted_eq_length (l : List Track)
    (h : countUnmuted l = l.length) : ∀ t ∈ l, t.isMuted = false := by
  intro t ht
  have := List.countP_eq_length.mp h t ht
  simpa using this

/-- The running invariant of repeated reveals on a freshly initialized
state with a full token balance: the track-list length is constant, the
unmuted count is `1 + min n (K - 1)` after `n` reveals, and the token
balance is `tok - n`. -/
theorem revealIter_invariant (raws : List (Option String)) (tok prize : Nat)
    (e0 : Int → Bool) (hne : raws ≠ []) (htok : raws.length ≤ tok) :
    ∀ n,
      (revealIter n (initState raws tok prize e0)).tracks.length = raws.length ∧
      countUnmuted (revealIter n (initState raws tok prize e0)).tracks
        = 1 + min n (raws.length - 1) ∧
      (revealIter n (initState raws tok prize e0)).tokens = tok - n := by
  have hK1 : 1 ≤ raws.length := by
    cases raws with
    | nil => exact absurd rfl hne
    | cons r rs => simp
  intro n
  induction n with
  | zero =>
    refine ⟨initState_length raws tok prize e0, ?_, rfl⟩
    rw [show revealIter 0 (initState raws tok prize e0) = initState raws tok prize e0 from rfl]
    rw [initState_countUnmuted raws tok prize e0 hne]
    simp
  | succ n ih =>
    obtain ⟨ihlen, ihcount, ihtok⟩ := ih
    simp only [revealIter]
    by_cases hz : (revealIter n (initState raws tok prize e0)).tokens = 0
    · -- no tokens left: the state is unchanged; this forces `n ≥ K`
      have hn : raws.length ≤ n := by omega
      rw [revealNext_tracks_zero _ hz]
      refine ⟨ihlen, ?_, ?_⟩
      · rw [ihcount]
        congr 1
        omega
      · omega
    · have htr := revealNext_tracks (revealIter n (initState raws tok prize e0)) hz
      have htk := revealNext_tokens (revealIter n (initState raws tok prize e0))
      refine ⟨?_, ?_, by omega⟩
      · rw [htr]
        cases hsel : specSelectIdx (revealIter n (initState raws tok prize e0)).tracks with
        | none => simp [specReveal, hsel, ihlen]
        | some jt =>
          obtain ⟨j, t⟩ := jt
          simp only [specReveal, hsel]
          rw [length_setUnmuted]
          exact ihlen
      · rw [htr]
        cases hsel : specSelectIdx (revealIter n (initState raws tok prize e0)).tracks with
        | none =>
          -- nothing muted: the count is already full, so `n ≥ K - 1`
          have hall := (specSelectIdx_none_iff _).mp hsel
          have hfull : countUnmuted (revealIter n (initState raws tok prize e0)).tracks
              = (revealIter n (initState raws tok prize e0)).tracks.length := by
            apply List.countP_eq_length.mpr
            intro t ht
            simp [hall t ht]
          rw [ihlen] at hfull
          rw [ihcount] at hfull
          simp only [specReveal, hsel]
          rw [ihcount]
          congr 1
          omega
        | some jt =>
          obtain ⟨j, t⟩ := jt
          obtain ⟨hget, hmut, _⟩ := specSelectIdx_spec _ j t hsel
          simp only [specReveal, hsel]
          rw [countUnmuted_setUnmuted _ j t hget hmut, ihcount]
          -- a muted track exists, so the count is not yet full: `n < K - 1`
          have hlt : 1 + min n (raws.length - 1) < raws.length := by
            by_contra hge
            have hfull : countUnmuted (revealIter n (initState raws tok prize e0)).tracks
                = (revealIter n (initState raws tok prize e0)).tracks.length := by
              have h1 := countUnmuted_le_length
                (revealIter n (initState raws tok prize e0)).tracks
              rw [ihcount, ihlen]
              rw [ihcount, ihlen] at h1
              omega
            have := countUnmuted_eq_length _ hfull t (List.get?_mem hget)
            rw [this] at hmut
            exact absurd hmut (by simp)
          omega

theorem get?_setUnmuted (l : List Track) :
    ∀ j i, (setUnmuted l j).get? i =
      if i = j then (l.get? j).map (fun t => { t with isMuted := false })
      else l.get? i := by
  induction l with
  | nil =>
    intro j i
    cases j <;> cases i <;> simp [setUnmuted]
  | cons t0 ts ih =>
    intro j i
    cases j with
    | zero =>
      cases i with
      | zero => simp [setUnmuted]
      | succ i' => simp [setUnmuted]
    | succ j' =>
      cases i with
      | zero => simp [setUnmuted]
      | succ i' =>
        show (setUnmuted ts j').get? i' = _
        rw [ih j' i']
        by_cases h : i' = j'
        · rw [if_pos h, if_pos (by omega)]
          rfl
        · rw [if_neg h, if_neg (by omega)]
          rfl

/-- Track ids coincide with list positions. -/
def idsIndexed (l : List Track) : Prop :=
  ∀ i t, l.get? i = some t → t.id = i

theorem idsIndexed_initState (raws : List (Option String)) (tok prize : Nat)
    (e0 : Int → Bool) : idsIndexed (initState raws tok prize e0).tracks := by
  intro i t h
  rw [initState_tracks_eq, applyMutesFrom_get?] at h
  rcases hb : (buildTracks raws).get? i with _ | tb
  · rw [hb] at h; simp at h
  · rw [hb] at h
    have heq :
        { tb with isMuted := decide (some (0 + i) ≠ firstUnmutedIdx (buildTracks raws)) } = t := by
      simpa using h
    have hid := buildTracksFrom_id raws 0 i tb hb
    rw [← heq]
    simpa using hid

theorem idsIndexed_setUnmuted (l : List Track) (j : Nat)
    (h : idsIndexed l) : idsIndexed (setUnmuted l j) := by
  intro i t hget
  rw [get?_setUnmuted] at hget
  by_cases hij : i = j
  · rw [if_pos hij] at hget
    rcases hb : l.get? j with _ | tb
    · rw [hb] at hget; simp at hget
    · rw [hb] at hget
      have heq : { tb with isMuted := false } = t := by simpa using hget
      have := h j tb hb
      rw [← heq]
      simpa [hij] using this
  · rw [if_neg hij] at hget
    exact h i t hget

theorem idsIndexed_specReveal (l : List Track) (h : idsIndexed l) :
    idsIndexed (specReveal l) := by
  cases hsel : specSelectIdx l with
  | none => simpa [specReveal, hsel] using h
  | some jt =>
    obtain ⟨j, t⟩ := jt
    simpa [specReveal, hsel] using idsIndexed_setUnmuted l j h

theorem revealIter_idsIndexed (raws : List (Option String)) (tok prize : Nat)
    (e0 : Int → Bool) :
    ∀ n, idsIndexed (revealIter n (initState raws tok prize e0)).tracks := by
  intro n
  induction n with
  | zero => exact idsIndexed_initState raws tok prize e0
  | succ n ih =>
    simp only [revealIter]
    by_cases hz : (revealIter n (initState raws tok prize e0)).tokens = 0
    · rw [revealNext_tracks_zero _ hz]
      exact ih
    · rw [revealNext_tracks _ hz]
      exact idsIndexed_specReveal _ ih

/-- C5: starting from initialization of a non-empty song with token
balance at least the number of tracks `K`: after `N` reveals exactly
`1 + min N (K - 1)` tracks are unmuted; each reveal performs exactly the
spec's update (unmute the selected muted track, or nothing when none is
muted); the selected track is muted with minimal priority value, ties
resolved towards the lowest index; and ids coincide with indices
throughout, so the tie is equivalently broken by the lowest id. -/
theorem revealNext_c5 (raws : List (Option String)) (tok prize : Nat)
    (e0 : Int → Bool) (N : Nat) (hne : raws ≠ []) (htok : raws.length ≤ tok) :
    countUnmuted (revealIter N (initState raws tok prize e0)).tracks
      = 1 + min N (raws.length - 1) ∧
    (∀ n, n < N →
      (revealIter (n + 1) (initState raws tok prize e0)).tracks
        = specReveal (revealIter n (initState raws tok prize e0)).tracks) ∧
    (∀ l (j : Nat) (t : Track), specSelectIdx l = some (j, t) →
      l.get? j = some t ∧ t.isMuted = true ∧
        ∀ i t', l.get? i = some t' → t'.isMuted = true →
          t.priority < t'.priority ∨ (t.priority = t'.priority ∧ j ≤ i)) ∧
    (∀ n i t, (revealIter n (initState raws tok prize e0)).tracks.get? i = some t →
      t.id = i) := by
  refine ⟨(revealIter_invariant raws tok prize e0 hne htok N).2.1, ?_,
    fun l j t h => specSelectIdx_spec l j t h,
    fun n => revealIter_idsIndexed raws tok prize e0 n⟩
  intro n hn
  simp only [revealIter]
  by_cases hz : (revealIter n (initState raws tok prize e0)).tokens = 0
  · -- the token balance ran out, which can only happen once everything is
    -- already unmuted; both sides leave the state unchanged
    obtain ⟨hlen, hcount, htk⟩ := revealIter_invariant raws tok prize e0 hne htok n
    have hK1 : 1 ≤ raws.length := by
      cases raws with
      | nil => exact absurd rfl hne
      | cons r rs => simp
    have hfull : countUnmuted (revealIter n (initState raws tok prize e0)).tracks
        = (revealIter n (initState raws tok prize e0)).tracks.length := by
      rw [hcount, hlen]
      have hn' : raws.length ≤ n := by omega
      omega
    have hall := countUnmuted_eq_length _ hfull
    have hsel := (specSelectIdx_none_iff _).mpr hall
    rw [revealNext_tracks_zero _ hz]
    simp [specReveal, hsel]
  · exact revealNext_tracks _ hz

theorem revealNext_c5_witness :
    countUnmuted (revealIter 4 (initState [some "Lead", some "Bass", some "Percussion"]
      5 10 (fun _ => false))).tracks = 3 := by
  simpa using (revealNext_c5 [some "Lead", some "Bass", some "Percussion"] 5 10
    (fun _ => false) 4 (by decide) (by decide)).1

/-- C7: whenever a reveal runs with a positive token balance, the balance
drops by exactly one, even when every track is already unmuted and the
track list is left unchanged. -/
theorem revealNext_c7 (s : RState) (h : 0 < s.tokens) :
    (revealNext s).tokens = s.tokens - 1 ∧
    ((∀ t ∈ s.tracks, t.isMuted = false) → (revealNext s).tracks = s.tracks) := by
  refine ⟨revealNext_tokens s, fun hall => ?_⟩
  rw [revealNext_tracks s (by omega)]
  simp [specReveal, (specSelectIdx_none_iff s.tracks).mpr hall]

/-- A state in which every track is already unmuted. -/
def cAllUnmuted : RState :=
  { tracks := [{ id := 0, name := "Guitar Solo", isMuted := false, priority := 3 }]
    tokens := 3
    prize := 10
    pos := 0
    playing := true
    engine := fun _ => false }

theorem revealNext_c7_witness :
    (revealNext cAllUnmuted).tokens = 2 ∧
    (revealNext cAllUnmuted).tracks = cAllUnmuted.tracks :=
  ⟨(revealNext_c7 cAllUnmuted (by decide)).1,
   (revealNext_c7 cAllUnmuted (by decide)).2 (by decide)⟩

/-- C8: a reveal requested with zero tokens changes nothing at all — no
track flag, no token, no prize, no playback field and no engine channel —
the guard returns before any effect. -/
theorem revealNext_c8 (s : RState) (h : s.tokens = 0) : revealNext s = s :=
  revealNext_tracks_zero s h

theorem revealNext_c8_witness :
    revealNext (initState [some "Drums"] 0 10 (fun _ => false)) =
      initState [some "Drums"] 0 10 (fun _ => false) :=
  revealNext_c8 (initState [some "Drums"] 0 10 (fun _ => false)) rfl

/-! ## `toggleMute` (lines 631-691), `handleRestart` (lines 731-769) and
`verifyTrackStates` (lines 694-711)

`toggleMute` maps over the track list, flipping the flag of the track whose
id matches and writing engine channel `trackId - 1` with the new value (the
code may write the same value a second time when its read-back check
disagrees, which leaves the same engine state); ids are unique, so the
single matching track is the first one found.  `handleRestart` recomputes
the lowest-priority index with the same strict-`<` reduce as
initialization, re-mutes every other track writing engine channel
`track.id`, rewinds to position 0 and resumes playing.
`verifyTrackStates` re-applies each recorded flag to engine channel
`track.id - 1` wherever the engine disagrees. -/

def toggleFn (trackId : Nat) (t : Track) : Track :=
  if t.id = trackId then { t with isMuted := !t.isMuted } else t

def toggleMute (trackId : Nat) (s : RState) : RState :=
  { s with
    tracks := s.tracks.map (toggleFn trackId)
    engine :=
      match s.tracks.find? (fun t => t.id == trackId) with
      | some t => updE s.engine (toggleChannel trackId) (!t.isMuted)
      | none => s.engine }

def writeTracksEngineById (e : Int → Bool) : List Track → (Int → Bool)
  | [] => e
  | t :: ts => writeTracksEngineById (updE e (restartChannel t.id) t.isMuted) ts

def handleRestart (s : RState) : RState :=
  let j0 := firstUnmutedIdx s.tracks
  let ts' := applyMutesFrom 0 j0 s.tracks
  { s with
    tracks := ts'
    engine := writeTracksEngineById s.engine ts'
    pos := 0
    playing := true }

def verifyTrackStates (s : RState) : RState :=
  { s with
    engine := s.tracks.foldl
      (fun e t =>
        if e (verifyChannel t.id) = t.isMuted then e
        else updE e (verifyChannel t.id) t.isMuted) s.engine }

inductive SeqOp where
  | reveal : SeqOp
  | toggle : Nat → SeqOp
deriving DecidableEq

def applyOp (s : RState) (op : SeqOp) : RState :=
  match op with
  | SeqOp.reveal => revealNext s
  | SeqOp.toggle trackId => toggleMute trackId s

def applyOps (s : RState) (ops : List SeqOp) : RState :=
  ops.foldl applyOp s

/-! ### Shape preservation: reveals and toggles keep ids, names, priorities
and the list order; only mute flags change. -/

def shapeEq : List Track → List Track → Prop
  | [], [] => True
  | a :: as, b :: bs => a.id = b.id ∧ a.name = b.name ∧ a.priority = b.priority ∧ shapeEq as bs
  | _, [] => False
  | [], _ => False

theorem shapeEq_refl (l : List Track) : shapeEq l l := by
  induction l with
  | nil => trivial
  | cons t ts ih => exact ⟨rfl, rfl, rfl, ih⟩

theorem shapeEq_trans (l1 l2 l3 : List Track) :
    shapeEq l1 l2 → shapeEq l2 l3 → shapeEq l1 l3 := by
  induction l1 generalizing l2 l3 with
  | nil =>
    intro h12 h23
    cases l2 with
    | nil =>
      cases l3 with
      | nil => trivial
      | cons c cs => exact absurd h23 (by simp [shapeEq])
    | cons b bs => exact absurd h12 (by simp [shapeEq])
  | cons a as ih =>
    intro h12 h23
    cases l2 with
    | nil => exact absurd h12 (by simp [shapeEq])
    | cons b bs =>
      cases l3 with
      | nil => exact absurd h23 (by simp [shapeEq])
      | cons c cs =>
        obtain ⟨h1, h2, h3, h4⟩ := h12
        obtain ⟨g1, g2, g3, g4⟩ := h23
        exact ⟨h1.trans g1, h2.trans g2, h3.trans g3, ih bs cs h4 g4⟩

theorem shapeEq_setUnmuted (l : List Track) :
    ∀ j, shapeEq l (setUnmuted l j) := by
  induction l with
  | nil => intro j; cases j <;> trivial
  | cons t ts ih =>
    intro j
    cases j with
    | zero => exact ⟨rfl, rfl, rfl, shapeEq_refl ts⟩
    | succ j' => exact ⟨rfl, rfl, rfl, ih j'⟩

theorem shapeEq_specReveal (l : List Track) : shapeEq l (specReveal l) := by
  cases hsel : specSelectIdx l with
  | none => simp [specReveal, hsel, shapeEq_refl]
  | some jt =>
    obtain ⟨j, t⟩ := jt
    simpa [specReveal, hsel] using shapeEq_setUnmuted l j

theorem shapeEq_map_toggleFn (trackId : Nat) (l : List Track) :
    shapeEq l (l.map (toggleFn trackId)) := by
  induction l with
  | nil => trivial
  | cons t ts ih =>
    refine ⟨?_, ?_, ?_, ih⟩ <;>
      (simp only [toggleFn]; by_cases h : t.id = trackId <;> simp [h])

theorem shapeEq_bestFrom (l l' : List Track) (h : shapeEq l l') :
    ∀ j p k, bestFrom j p k l = bestFrom j p k l' := by
  induction l generalizing l' with
  | nil =>
    intro j p k
    cases l' with
    | nil => rfl
    | cons b bs => exact absurd h (by simp [shapeEq])
  | cons a as ih =>
    intro j p k
    cases l' with
    | nil => exact absurd h (by simp [shapeEq])
    | cons b bs =>
      obtain ⟨h1, h2, h3, h4⟩ := h
      simp only [bestFrom, h3]
      by_cases hp : b.priority < p
      · rw [if_pos hp, if_pos hp]
        exact ih bs h4 k b.priority (k + 1)
      · rw [if_neg hp, if_neg hp]
        exact ih bs h4 j p (k + 1)

theorem shapeEq_firstUnmutedIdx (l l' : List Track) (h : shapeEq l l') :
    firstUnmutedIdx l = firstUnmutedIdx l' := by
  cases l with
  | nil =>
    cases l' with
    | nil => rfl
    | cons b bs => exact absurd h (by simp [shapeEq])
  | cons a as =>
    cases l' with
    | nil => exact absurd h (by simp [shapeEq])
    | cons b bs =>
      obtain ⟨h1, h2, h3, h4⟩ := h
      simp only [firstUnmutedIdx, h3]
      rw [shapeEq_bestFrom as bs h4]

theorem shapeEq_applyMutesFrom (l l' : List Track) (h : shapeEq l l') :
    ∀ k j0, applyMutesFrom k j0 l = applyMutesFrom k j0 l' := by
  induction l generalizing l' with
  | nil =>
    intro k j0
    cases l' with
    | nil => rfl
    | cons b bs => exact absurd h (by simp [shapeEq])
  | cons a as ih =>
    intro k j0
    cases l' with
    | nil => exact absurd h (by simp [shapeEq])
    | cons b bs =>
      obtain ⟨h1, h2, h3, h4⟩ := h
      simp only [applyMutesFrom]
      congr 1
      · cases a
        cases b
        simp only [Track.mk.injEq] at h1 h2 h3 ⊢
        simp_all
      · exact ih bs h4 (k + 1) j0

theorem shapeEq_applyOps (ops : List SeqOp) :
    ∀ s base, shapeEq base s.tracks → shapeEq base (applyOps s ops).tracks := by
  induction ops with
  | nil => intro s base h; exact h
  | cons op ops ih =>
    intro s base h
    show shapeEq base (applyOps (applyOp s op) ops).tracks
    apply ih
    cases op with
    | reveal =>
      by_cases hz : s.tokens = 0
      · rw [show applyOp s SeqOp.reveal = revealNext s from rfl, revealNext_tracks_zero s hz]
        exact h
      · rw [show applyOp s SeqOp.reveal = revealNext s from rfl]
        have := revealNext_tracks s hz
        rw [this]
        exact shapeEq_trans _ _ _ h (shapeEq_specReveal s.tracks)
    | toggle trackId =>
      exact shapeEq_trans _ _ _ h (shapeEq_map_toggleFn trackId s.tracks)

theorem writeTracksEngine_lt (l : List Track) :
    ∀ e (k : Nat) (c : Int), c < (k : Int) → writeTracksEngine e k l c = e c := by
  induction l with
  | nil => intro e k c _; rfl
  | cons t ts ih =>
    intro e k c hc
    show writeTracksEngine (updE e (initChannel k) t.isMuted) (k + 1) ts c = e c
    rw [ih _ (k + 1) c (by push_cast; omega)]
    simp only [updE, initChannel]
    rw [if_neg (by omega)]

theorem writeTracksEngine_at (l : List Track) :
    ∀ e (k : Nat) i t, l.get? i = some t →
      writeTracksEngine e k l (((k + i : Nat) : Int)) = t.isMuted := by
  induction l with
  | nil => intro e k i t h; simp at h
  | cons t0 ts ih =>
    intro e k i t h
    cases i with
    | zero =>
      have heq : t0 = t := by simpa using h
      subst heq
      show writeTracksEngine (updE e (initChannel k) t0.isMuted) (k + 1) ts _ = _
      rw [writeTracksEngine_lt ts _ (k + 1) _ (by push_cast; omega)]
      simp [updE, initChannel]
    | succ i' =>
      show writeTracksEngine (updE e (initChannel k) t0.isMuted) (k + 1) ts _ = _
      have harith : ((k + (i' + 1) : Nat) : Int) = (((k + 1) + i' : Nat) : Int) := by
        push_cast
        omega
      rw [harith]
      exact ih _ (k + 1) i' t h

theorem writeTracksEngineById_lt (l : List Track) :
    ∀ e (k : Nat), (∀ i t, l.get? i = some t → t.id = k + i) →
      ∀ c : Int, c < (k : Int) → writeTracksEngineById e l c = e c := by
  induction l with
  | nil => intro e k _ c _; rfl
  | cons t ts ih =>
    intro e k hid c hc
    have ht0 : t.id = k := by
      have := hid 0 t rfl
      omega
    show writeTracksEngineById (updE e (restartChannel t.id) t.isMuted) ts c = e c
    have hshift : ∀ i t', ts.get? i = some t' → t'.id = (k + 1) + i := by
      intro i t' h'
      have := hid (i + 1) t' h'
      omega
    rw [ih _ (k + 1) hshift c (by push_cast; omega)]
    simp only [updE, restartChannel, ht0]
    rw [if_neg (by omega)]

theorem writeTracksEngineById_at (l : List Track) :
    ∀ e (k : Nat), (∀ i t, l.get? i = some t → t.id = k + i) →
      ∀ i t, l.get? i = some t →
        writeTracksEngineById e l (((k + i : Nat) : Int)) = t.isMuted := by
  induction l with
  | nil => intro e k _ i t h; simp at h
  | cons t0 ts ih =>
    intro e k hid i t h
    have ht0 : t0.id = k := by
      have := hid 0 t0 rfl
      omega
    have hshift : ∀ i t', ts.get? i = some t' → t'.id = (k + 1) + i := by
      intro i t' h'
      have := hid (i + 1) t' h'
      omega
    cases i with
    | zero =>
      have heq : t0 = t := by simpa using h
      subst heq
      show writeTracksEngineById (updE e (restartChannel t0.id) t0.isMuted) ts _ = _
      rw [writeTracksEngineById_lt ts _ (k + 1) hshift _ (by push_cast; omega)]
      simp [updE, restartChannel, ht0]
    | succ i' =>
      show writeTracksEngineById (updE e (restartChannel t0.id) t0.isMuted) ts _ = _
      have harith : ((k + (i' + 1) : Nat) : Int) = (((k + 1) + i' : Nat) : Int) := by
        push_cast
        omega
      rw [harith]
      exact ih _ (k + 1) hshift i' t h

/-- C6: after any sequence of reveals and manual toggles, a restart
restores exactly the initial track list (the same single unmuted track),
rewinds the playback position to zero, resumes playback, and leaves every
valid engine channel as initialization had set it. -/
theorem handleRestart_c6 (raws : List (Option String)) (tok prize : Nat)
    (e0 : Int → Bool) (ops : List SeqOp) :
    (handleRestart (applyOps (initState raws tok prize e0) ops)).tracks
      = (initState raws tok prize e0).tracks ∧
    (handleRestart (applyOps (initState raws tok prize e0) ops)).pos = 0 ∧
    (handleRestart (applyOps (initState raws tok prize e0) ops)).playing = true ∧
    (∀ i t, (initState raws tok prize e0).tracks.get? i = some t →
      (handleRestart (applyOps (initState raws tok prize e0) ops)).engine (i : Int)
        = (initState raws tok prize e0).engine (i : Int)) := by
  have hshape0 : shapeEq (buildTracks raws) (initState raws tok prize e0).tracks := by
    rw [initState_tracks_eq]
    exact shapeEq_trans _ _ _ (shapeEq_refl _)
      (by
        have : applyMutesFrom 0 (firstUnmutedIdx (buildTracks raws)) (buildTracks raws)
            = applyMutesFrom 0 (firstUnmutedIdx (buildTracks raws)) (buildTracks raws) := rfl
        -- shape preservation of the second pass
        clear this
        generalize firstUnmutedIdx (buildTracks raws) = j0
        generalize buildTracks raws = l
        show shapeEq l (applyMutesFrom 0 j0 l)
        generalize 0 = k
        induction l generalizing k with
        | nil => trivial
        | cons t ts ih => exact ⟨rfl, rfl, rfl, ih (k + 1)⟩)
  have hshape : shapeEq (buildTracks raws)
      (applyOps (initState raws tok prize e0) ops).tracks :=
    shapeEq_applyOps ops (initState raws tok prize e0) (buildTracks raws) hshape0
  have hidx : firstUnmutedIdx (applyOps (initState raws tok prize e0) ops).tracks
      = firstUnmutedIdx (buildTracks raws) := by
    rw [← shapeEq_firstUnmutedIdx _ _ hshape]
  have htracks : (handleRestart (applyOps (initState raws tok prize e0) ops)).tracks
      = (initState raws tok prize e0).tracks := by
    show applyMutesFrom 0
        (firstUnmutedIdx (applyOps (initState raws tok prize e0) ops).tracks)
        (applyOps (initState raws tok prize e0) ops).tracks = _
    rw [hidx, initState_tracks_eq]
    exact (shapeEq_applyMutesFrom _ _ hshape 0 _).symm
  refine ⟨htracks, rfl, rfl, ?_⟩
  intro i t hget
  have hids0 : idsIndexed (initState raws tok prize e0).tracks :=
    idsIndexed_initState raws tok prize e0
  have hids : ∀ i t, (initState raws tok prize e0).tracks.get? i = some t →
      t.id = 0 + i := by
    intro i t h
    rw [Nat.zero_add]
    exact hids0 i t h
  have hlhs : (handleRestart (applyOps (initState raws tok prize e0) ops)).engine (i : Int)
      = t.isMuted := by
    show writeTracksEngineById (applyOps (initState raws tok prize e0) ops).engine
        (applyMutesFrom 0
          (firstUnmutedIdx (applyOps (initState raws tok prize e0) ops).tracks)
          (applyOps (initState raws tok prize e0) ops).tracks) (i : Int) = t.isMuted
    have hlist : applyMutesFrom 0
        (firstUnmutedIdx (applyOps (initState raws tok prize e0) ops).tracks)
        (applyOps (initState raws tok prize e0) ops).tracks
        = (initState raws tok prize e0).tracks := htracks
    rw [hlist]
    have := writeTracksEngineById_at (initState raws tok prize e0).tracks
      (applyOps (initState raws tok prize e0) ops).engine 0 hids i t hget
    simpa using this
  have hrhs : (initState raws tok prize e0).engine (i : Int) = t.isMuted := by
    show writeTracksEngine e0 0 (initState raws tok prize e0).tracks (i : Int) = t.isMuted
    have := writeTracksEngine_at (initState raws tok prize e0).tracks e0 0 i t hget
    simpa using this
  rw [hlhs, hrhs]

theorem handleRestart_c6_witness :
    (handleRestart (applyOps (initState [some "Bass", some "Melody"] 5 10 (fun _ => false))
        [SeqOp.reveal, SeqOp.toggle 0])).engine (0 : Int)
      = (initState [some "Bass", some "Melody"] 5 10 (fun _ => false)).engine (0 : Int) :=
  (handleRestart_c6 [some "Bass", some "Melody"] 5 10 (fun _ => false)
    [SeqOp.reveal, SeqOp.toggle 0]).2.2.2 0
    { id := 0, name := "Bass", isMuted := false, priority := 1 } (by decide)

/-! ## C10: toggling the same track twice -/

theorem toggleFn_invol (trackId : Nat) (t : Track) :
    toggleFn trackId (toggleFn trackId t) = t := by
  simp only [toggleFn]
  by_cases h : t.id = trackId
  · rw [if_pos h]
    rw [if_pos (by simpa using h)]
    cases t
    simp
  · rw [if_neg h, if_neg h]

theorem map_toggleFn_invol (trackId : Nat) (l : List Track) :
    (l.map (toggleFn trackId)).map (toggleFn trackId) = l := by
  induction l with
  | nil => rfl
  | cons t ts ih => simp [toggleFn_invol, ih]

theorem find?_map_toggleFn (trackId : Nat) (l : List Track) :
    (l.map (toggleFn trackId)).find? (fun t => t.id == trackId)
      = (l.find? (fun t => t.id == trackId)).map (toggleFn trackId) := by
  induction l with
  | nil => rfl
  | cons t ts ih =>
    by_cases h : t.id = trackId
    · have h1 : ((toggleFn trackId t).id == trackId) = true := by
        simp [toggleFn, h]
      have h2 : (t.id == trackId) = true := by simp [h]
      simp only [List.map_cons, List.find?_cons, h1, h2]
      rfl
    · have h1 : ((toggleFn trackId t).id == trackId) = false := by
        simp [toggleFn, h]
      have h2 : (t.id == trackId) = false := by simp [h]
      simp only [List.map_cons, List.find?_cons, h1, h2]
      exact ih

/-- The state used to exhibit C10's failure: two equal-priority tracks, so
initialization unmutes track 0 (engine channel 0 unmuted, channel 1 muted). -/
def cPair : RState :=
  initState [some "alpha", some "beta"] 5 10 (fun _ => false)

/-- C10 counterexample: toggling track 1 twice in the freshly initialized
two-track state does not restore the engine state of the channel the
operation addressed.  `toggleMute` addresses channel `1 - 1 = 0`; that
channel was unmuted (`false`) by initialization, but after the double
toggle it holds track 1's original flag (`true`). -/
theorem toggleMute_c10_counterexample :
    (toggleMute 1 (toggleMute 1 cPair)).engine (toggleChannel 1)
      ≠ cPair.engine (toggleChannel 1) := by
  decide

/-- C10 (amended): toggling the same track id twice restores the track
list exactly, but the engine channel the operation addressed is left equal
to the addressed track's pre-toggle flag — which, because of the off-by-one
channel mapping, is not in general the channel's own pre-toggle value. -/
theorem toggleMute_c10_amended (s : RState) (trackId : Nat) :
    (toggleMute trackId (toggleMute trackId s)).tracks = s.tracks ∧
    (∀ t, s.tracks.find? (fun tr => tr.id == trackId) = some t →
      (toggleMute trackId (toggleMute trackId s)).engine (toggleChannel trackId)
        = t.isMuted) := by
  constructor
  · show ((s.tracks.map (toggleFn trackId)).map (toggleFn trackId)) = s.tracks
    exact map_toggleFn_invol trackId s.tracks
  · intro t h
    have hid : t.id = trackId := by
      have := List.find?_some h
      simpa using this
    have hfn : toggleFn trackId t = { t with isMuted := !t.isMuted } := by
      simp [toggleFn, hid]
    have hfind2 : (toggleMute trackId s).tracks.find? (fun tr => tr.id == trackId)
        = some (toggleFn trackId t) := by
      show (s.tracks.map (toggleFn trackId)).find? (fun tr => tr.id == trackId) = _
      rw [find?_map_toggleFn, h]
      rfl
    have heng1 : (toggleMute trackId s).engine
        = updE s.engine (toggleChannel trackId) (!t.isMuted) := by
      show (match s.tracks.find? (fun tr => tr.id == trackId) with
            | some t' => updE s.engine (toggleChannel trackId) (!t'.isMuted)
            | none => s.engine) = _
      rw [h]
    have heng2 : (toggleMute trackId (toggleMute trackId s)).engine
        = updE (toggleMute trackId s).engine (toggleChannel trackId)
            (!(toggleFn trackId t).isMuted) := by
      show (match (toggleMute trackId s).tracks.find? (fun tr => tr.id == trackId) with
            | some t' => updE (toggleMute trackId s).engine (toggleChannel trackId)
                (!t'.isMuted)
            | none => (toggleMute trackId s).engine) = _
      rw [hfind2]
    rw [heng2, heng1, hfn]
    simp [updE]

theorem toggleMute_c10_witness :
    (toggleMute 1 (toggleMute 1 cPair)).engine (toggleChannel 1) = true :=
  (toggleMute_c10_amended cPair 1).2
    { id := 1, name := "beta", isMuted := true, priority := 2 } (by decide)
